import Mathlib

/-!
Verification development for the TextReaper pipeline: the paragraph-aware
chunker (`epub_parse.split_content`), the cross-page boundary reconciler
(`pdf_parse.parse_pdf`, second pass), the range resolver and the two-mode
output aggregator (`extract_literary.process_pages` / `OutputManager`).

Modelling conventions:
* Python strings are sequences of code points; they are modelled as
  `List Char`.  `len`, slicing and `split` translate to list operations.
* File-system paths compared by Python's `sorted` are modelled as lists of
  natural code points (`List Nat`) with the lexicographic order Python uses
  for strings; all temporary files of one run share the same directory
  prefix, which does not affect their relative order.
* Python's `sorted` is a stable sort, modelled by `List.insertionSort`
  (also stable); for a fixed total preorder the two agree on every input.
* Fallible effects (reading a page's text) are modelled with `Option`.
-/

namespace TextReaper

/-- Python `text.split('\n')`: splits a character list at every newline,
keeping empty pieces, and yields `[[]]` on the empty string. -/
def splitNl : List Char → List (List Char)
  | [] => [[]]
  | c :: rest =>
    if c = '\n' then [] :: splitNl rest
    else
      match splitNl rest with
      | [] => [[c]]
      | p :: ps => (c :: p) :: ps

/-- Python `'\n'.join(parts)`. -/
def joinNl : List (List Char) → List Char
  | [] => []
  | [p] => p
  | p :: q :: t => p ++ '\n' :: joinNl (q :: t)

theorem splitNl_ne_nil (cs : List Char) : splitNl cs ≠ [] := by
  cases cs with
  | nil => simp [splitNl]
  | cons c rest =>
    simp only [splitNl]
    split
    · simp
    · split <;> simp

theorem joinNl_cons_cons (p q : List Char) (t : List (List Char)) :
    joinNl (p :: q :: t) = p ++ '\n' :: joinNl (q :: t) := rfl

theorem joinNl_splitNl (cs : List Char) : joinNl (splitNl cs) = cs := by
  induction cs with
  | nil => rfl
  | cons c rest ih =>
    simp only [splitNl]
    split
    · rename_i hc
      subst hc
      rcases h : splitNl rest with _ | ⟨p, ps⟩
      · exact absurd h (splitNl_ne_nil rest)
      · rw [h] at ih
        rw [joinNl_cons_cons]
        simpa using ih
    · rcases h : splitNl rest with _ | ⟨p, ps⟩
      · exact absurd h (splitNl_ne_nil rest)
      · rw [h] at ih
        cases ps with
        | nil => simpa [joinNl] using ih
        | cons q t =>
          rw [joinNl_cons_cons] at ih ⊢
          simpa using ih

theorem nl_not_mem_splitNl (cs : List Char) :
    ∀ p ∈ splitNl cs, '\n' ∉ p := by
  induction cs with
  | nil => simp [splitNl]
  | cons c rest ih =>
    simp only [splitNl]
    split
    · intro p hp
      rcases hp with _ | hp
      · simp
      · exact ih p (by assumption)
    · rename_i hc
      rcases h : splitNl rest with _ | ⟨q, qs⟩
      · exact absurd h (splitNl_ne_nil rest)
      · rw [h] at ih
        intro p hp
        rcases hp with _ | hp
        · intro hmem
          rcases hmem with _ | hmem
          · exact hc rfl
          · exact ih q (by simp) (by assumption)
        · exact ih p (List.mem_cons_of_mem _ (by assumption))

/-- If a piece contains no newline, splitting it is the identity. -/
theorem splitNl_of_no_nl (p : List Char) (h : '\n' ∉ p) : splitNl p = [p] := by
  induction p with
  | nil => rfl
  | cons c rest ih =>
    simp only [splitNl]
    rw [if_neg (by intro hc; exact h (hc ▸ List.mem_cons_self c rest))]
    rw [ih (fun hm => h (List.mem_cons_of_mem _ hm))]

theorem splitNl_append_nl (p : List Char) (x : List Char) (h : '\n' ∉ p) :
    splitNl (p ++ '\n' :: x) = p :: splitNl x := by
  induction p with
  | nil => simp [splitNl]
  | cons c rest ih =>
    have hc : c ≠ '\n' := fun hc => h (hc ▸ List.mem_cons_self c rest)
    simp only [List.cons_append, splitNl]
    rw [if_neg hc]
    simp only [List.append_eq]
    rw [ih (fun hm => h (List.mem_cons_of_mem _ hm))]

/-- Splitting undoes joining, provided the pieces are newline-free. -/
theorem splitNl_joinNl (g : List (List Char)) (hne : g ≠ [])
    (h : ∀ p ∈ g, '\n' ∉ p) : splitNl (joinNl g) = g := by
  induction g with
  | nil => exact absurd rfl hne
  | cons p t ih =>
    cases t with
    | nil => exact splitNl_of_no_nl p (h p (by simp))
    | cons q t' =>
      rw [joinNl_cons_cons, splitNl_append_nl p _ (h p (by simp))]
      rw [ih (by simp) (fun r hr => h r (List.mem_cons_of_mem _ hr))]

/-! ### The chunker (`epub_parse.split_content`)

```python
def split_content(text: str, chunk_size: int = 2000) -> List[str]:
    paragraphs = text.split('\n')
    chunks = []
    current_chunk = []
    current_size = 0
    for para in paragraphs:
        para_size = len(para)
        if current_size + para_size > chunk_size and current_chunk:
            chunks.append('\n'.join(current_chunk))
            current_chunk = [para]
            current_size = para_size
        else:
            current_chunk.append(para)
            current_size += para_size
    if current_chunk:
        chunks.append('\n'.join(current_chunk))
    return chunks
```
-/

/-- One iteration of the `for para in paragraphs` loop of `split_content`.
State: `(chunks, current_chunk, current_size)`. -/
def splitStep (chunk_size : Nat) :
    List (List Char) × List (List Char) × Nat → List Char →
    List (List Char) × List (List Char) × Nat
  | (chunks, current_chunk, current_size), para =>
    if current_size + para.length > chunk_size ∧ current_chunk ≠ [] then
      (chunks ++ [joinNl current_chunk], [para], para.length)
    else
      (chunks, current_chunk ++ [para], current_size + para.length)

/-- The loop of `split_content`, folded over all paragraphs of `text`,
starting from the empty state `chunks = []`, `current_chunk = []`,
`current_size = 0`. -/
def splitFold (text : List Char) (chunk_size : Nat) :
    List (List Char) × List (List Char) × Nat :=
  (splitNl text).foldl (splitStep chunk_size) ([], [], 0)

/-- Embedding of `epub_parse.split_content`, text modelled as a character
list: run the
loop, then close the final non-empty `current_chunk`. -/
def split_content (text : List Char) (chunk_size : Nat) : List (List Char) :=
  if (splitFold text chunk_size).2.1 ≠ [] then
    (splitFold text chunk_size).1 ++ [joinNl (splitFold text chunk_size).2.1]
  else
    (splitFold text chunk_size).1

/-- Group-level version of `splitStep`: chunks kept as lists of paragraphs
instead of joined strings. -/
def chunkStep (chunk_size : Nat) :
    List (List (List Char)) × List (List Char) × Nat → List Char →
    List (List (List Char)) × List (List Char) × Nat
  | (chunks, current_chunk, current_size), para =>
    if current_size + para.length > chunk_size ∧ current_chunk ≠ [] then
      (chunks ++ [current_chunk], [para], para.length)
    else
      (chunks, current_chunk ++ [para], current_size + para.length)

/-- The chunking loop at group level, from the empty state. -/
def chunkFold (paragraphs : List (List Char)) (chunk_size : Nat) :
    List (List (List Char)) × List (List Char) × Nat :=
  paragraphs.foldl (chunkStep chunk_size) ([], [], 0)

/-- Group-level version of `split_content`. -/
def chunkGroups (paragraphs : List (List Char)) (chunk_size : Nat) :
    List (List (List Char)) :=
  if (chunkFold paragraphs chunk_size).2.1 ≠ [] then
    (chunkFold paragraphs chunk_size).1 ++ [(chunkFold paragraphs chunk_size).2.1]
  else
    (chunkFold paragraphs chunk_size).1

theorem splitStep_eq_chunkStep (chunk_size : Nat) :
    ∀ (paras : List (List Char)) (gs : List (List (List Char)))
      (cur : List (List Char)) (n : Nat),
      paras.foldl (splitStep chunk_size) (gs.map joinNl, cur, n) =
        ((paras.foldl (chunkStep chunk_size) (gs, cur, n)).1.map joinNl,
         (paras.foldl (chunkStep chunk_size) (gs, cur, n)).2) := by
  intro paras
  induction paras with
  | nil => intro gs cur n; rfl
  | cons para t ih =>
    intro gs cur n
    simp only [List.foldl_cons]
    by_cases h : n + para.length > chunk_size ∧ cur ≠ []
    · rw [splitStep, chunkStep, if_pos h, if_pos h]
      have := ih (gs ++ [cur]) [para] para.length
      simpa using this
    · rw [splitStep, chunkStep, if_neg h, if_neg h]
      exact ih gs (cur ++ [para]) (n + para.length)

theorem splitFold_eq_chunkFold (text : List Char) (chunk_size : Nat) :
    splitFold text chunk_size =
      ((chunkFold (splitNl text) chunk_size).1.map joinNl,
       (chunkFold (splitNl text) chunk_size).2) := by
  have h := splitStep_eq_chunkStep chunk_size (splitNl text) [] [] 0
  simpa only [List.map_nil, splitFold, chunkFold] using h

/-- The function `split_content` is `chunkGroups` followed by joining each
group. -/
theorem split_content_eq_chunkGroups (text : List Char) (chunk_size : Nat) :
    split_content text chunk_size =
      (chunkGroups (splitNl text) chunk_size).map joinNl := by
  unfold split_content chunkGroups
  rw [splitFold_eq_chunkFold]
  split
  · simp
  · simp

theorem chunkStep_fold_flatten (chunk_size : Nat) :
    ∀ (paras : List (List Char)) (gs : List (List (List Char)))
      (cur : List (List Char)) (n : Nat),
      (paras.foldl (chunkStep chunk_size) (gs, cur, n)).1.flatten ++
          (paras.foldl (chunkStep chunk_size) (gs, cur, n)).2.1 =
        gs.flatten ++ (cur ++ paras) := by
  intro paras
  induction paras with
  | nil => intro gs cur n; simp
  | cons para t ih =>
    intro gs cur n
    simp only [List.foldl_cons]
    by_cases h : n + para.length > chunk_size ∧ cur ≠ []
    · rw [chunkStep, if_pos h]
      rw [ih (gs ++ [cur]) [para] para.length]
      simp
    · rw [chunkStep, if_neg h]
      rw [ih gs (cur ++ [para]) (n + para.length)]
      simp

/-- The groups partition the paragraph list: no paragraph is dropped or
reordered. -/
theorem chunkGroups_flatten (paras : List (List Char)) (chunk_size : Nat) :
    (chunkGroups paras chunk_size).flatten = paras := by
  unfold chunkGroups
  have h := chunkStep_fold_flatten chunk_size paras [] [] 0
  simp only [List.flatten_nil, List.nil_append] at h
  rw [show paras.foldl (chunkStep chunk_size) ([], [], 0) =
        chunkFold paras chunk_size from rfl] at h
  split
  · rename_i hcur
    simpa using h
  · rename_i hcur
    simp only [ne_eq, not_not] at hcur
    rw [hcur, List.append_nil] at h
    exact h

theorem chunkStep_fold_ne_nil (chunk_size : Nat) :
    ∀ (paras : List (List Char)) (gs : List (List (List Char)))
      (cur : List (List Char)) (n : Nat),
      (∀ g ∈ gs, g ≠ []) →
      ∀ g ∈ (paras.foldl (chunkStep chunk_size) (gs, cur, n)).1, g ≠ [] := by
  intro paras
  induction paras with
  | nil => intro gs cur n h; simpa using h
  | cons para t ih =>
    intro gs cur n h
    simp only [List.foldl_cons]
    by_cases hc : n + para.length > chunk_size ∧ cur ≠ []
    · rw [chunkStep, if_pos hc]
      refine ih (gs ++ [cur]) [para] para.length ?_
      intro g hg
      rcases List.mem_append.mp hg with hg | hg
      · exact h g hg
      · simp only [List.mem_singleton] at hg
        exact hg ▸ hc.2
    · rw [chunkStep, if_neg hc]
      exact ih gs (cur ++ [para]) (n + para.length) h

/-- Every chunk contains at least one paragraph. -/
theorem chunkGroups_ne_nil (paras : List (List Char)) (chunk_size : Nat) :
    ∀ g ∈ chunkGroups paras chunk_size, g ≠ [] := by
  have hfold : ∀ g ∈ (chunkFold paras chunk_size).1, g ≠ [] :=
    chunkStep_fold_ne_nil chunk_size paras [] [] 0 (by simp)
  unfold chunkGroups
  split
  · rename_i hcur
    intro g hg
    rcases List.mem_append.mp hg with hg | hg
    · exact hfold g hg
    · simp only [List.mem_singleton] at hg
      exact hg ▸ hcur
  · intro g hg
    exact hfold g hg

theorem joinNl_append (a b : List (List Char)) (ha : a ≠ []) (hb : b ≠ []) :
    joinNl (a ++ b) = joinNl a ++ '\n' :: joinNl b := by
  induction a with
  | nil => exact absurd rfl ha
  | cons p t ih =>
    cases t with
    | nil =>
      cases b with
      | nil => exact absurd rfl hb
      | cons q t' => simp [joinNl_cons_cons, joinNl]
    | cons q t' =>
      rw [List.cons_append, List.cons_append, joinNl_cons_cons,
        ← List.cons_append, ih (by simp), joinNl_cons_cons]
      simp

theorem joinNl_map_joinNl (gs : List (List (List Char)))
    (h : ∀ g ∈ gs, g ≠ []) : joinNl (gs.map joinNl) = joinNl gs.flatten := by
  induction gs with
  | nil => rfl
  | cons g t ih =>
    cases t with
    | nil => simp [joinNl]
    | cons g' t' =>
      have hg : g ≠ [] := h g (by simp)
      have ht : (g' :: t').flatten ≠ [] := by
        have hg' : g' ≠ [] := h g' (by simp)
        simp only [List.flatten_cons]
        intro hf
        exact hg' (List.append_eq_nil.mp hf).1
      rw [List.flatten_cons, joinNl_append g _ hg ht,
        ← ih (fun x hx => h x (List.mem_cons_of_mem _ hx)),
        List.map_cons, List.map_cons, joinNl_cons_cons, ← List.map_cons]

/-- Bound invariant of a chunk (as a group of paragraphs): either the sum of
its paragraphs' lengths is within the target, or it is a single oversized
paragraph. -/
def boundP (chunk_size : Nat) (g : List (List Char)) : Prop :=
  (g.map List.length).sum ≤ chunk_size ∨ ∃ p, g = [p] ∧ chunk_size < p.length

theorem boundP_singleton (chunk_size : Nat) (p : List Char) :
    boundP chunk_size [p] := by
  by_cases h : p.length ≤ chunk_size
  · exact Or.inl (by simpa using h)
  · exact Or.inr ⟨p, rfl, by omega⟩

theorem chunkStep_fold_bound (chunk_size : Nat) :
    ∀ (paras : List (List Char)) (gs : List (List (List Char)))
      (cur : List (List Char)) (n : Nat),
      (∀ g ∈ gs, boundP chunk_size g) → boundP chunk_size cur →
      n = (cur.map List.length).sum →
      (∀ g ∈ (paras.foldl (chunkStep chunk_size) (gs, cur, n)).1,
          boundP chunk_size g) ∧
        boundP chunk_size (paras.foldl (chunkStep chunk_size) (gs, cur, n)).2.1 := by
  intro paras
  induction paras with
  | nil => intro gs cur n hgs hcur hn; exact ⟨by simpa using hgs, hcur⟩
  | cons para t ih =>
    intro gs cur n hgs hcur hn
    simp only [List.foldl_cons]
    by_cases h : n + para.length > chunk_size ∧ cur ≠ []
    · rw [chunkStep, if_pos h]
      refine ih (gs ++ [cur]) [para] para.length ?_ (boundP_singleton _ _) (by simp)
      intro g hg
      rcases List.mem_append.mp hg with hg | hg
      · exact hgs g hg
      · simp only [List.mem_singleton] at hg
        exact hg ▸ hcur
    · rw [chunkStep, if_neg h]
      rcases List.eq_nil_or_concat cur with hc | _
      · subst hc
        have hn0 : n = 0 := by simpa using hn
        subst hn0
        exact ih gs ([] ++ [para]) (0 + para.length) hgs (boundP_singleton _ _)
          (by simp)
      · have hcur' : cur ≠ [] := by
          rename_i hx; rcases hx with ⟨l, a, rfl⟩; simp
        have hle : n + para.length ≤ chunk_size := by
          by_contra hgt
          exact h ⟨by omega, hcur'⟩
        refine ih gs (cur ++ [para]) (n + para.length) hgs (Or.inl ?_) (by simp [hn])
        simp [← hn]
        omega

theorem chunkGroups_bound (paras : List (List Char)) (chunk_size : Nat) :
    ∀ g ∈ chunkGroups paras chunk_size, boundP chunk_size g := by
  have h := chunkStep_fold_bound chunk_size paras [] [] 0 (by simp)
    (Or.inl (by simp)) (by simp)
  rw [show paras.foldl (chunkStep chunk_size) ([], [], 0) =
        chunkFold paras chunk_size from rfl] at h
  unfold chunkGroups
  split
  · intro g hg
    rcases List.mem_append.mp hg with hg | hg
    · exact h.1 g hg
    · simp only [List.mem_singleton] at hg
      exact hg ▸ h.2
  · exact h.1

theorem chunkStep_fold_pred (chunk_size : Nat) (Q : List Char → Prop) :
    ∀ (paras : List (List Char)) (gs : List (List (List Char)))
      (cur : List (List Char)) (n : Nat),
      (∀ g ∈ gs, ∀ p ∈ g, Q p) → (∀ p ∈ cur, Q p) → (∀ p ∈ paras, Q p) →
      (∀ g ∈ (paras.foldl (chunkStep chunk_size) (gs, cur, n)).1, ∀ p ∈ g, Q p) ∧
        (∀ p ∈ (paras.foldl (chunkStep chunk_size) (gs, cur, n)).2.1, Q p) := by
  intro paras
  induction paras with
  | nil => intro gs cur n hgs hcur _; exact ⟨by simpa using hgs, hcur⟩
  | cons para t ih =>
    intro gs cur n hgs hcur hpar
    have hpara : Q para := hpar para (by simp)
    have hrest : ∀ p ∈ t, Q p := fun p hp => hpar p (List.mem_cons_of_mem _ hp)
    simp only [List.foldl_cons]
    by_cases h : n + para.length > chunk_size ∧ cur ≠ []
    · rw [chunkStep, if_pos h]
      refine ih (gs ++ [cur]) [para] para.length ?_ (by simpa using hpara) hrest
      intro g hg
      rcases List.mem_append.mp hg with hg | hg
      · exact hgs g hg
      · simp only [List.mem_singleton] at hg
        exact hg ▸ hcur
    · rw [chunkStep, if_neg h]
      refine ih gs (cur ++ [para]) (n + para.length) hgs ?_ hrest
      intro p hp
      rcases List.mem_append.mp hp with hp | hp
      · exact hcur p hp
      · simp only [List.mem_singleton] at hp
        exact hp ▸ hpara

theorem chunkGroups_pred (paras : List (List Char)) (chunk_size : Nat)
    (Q : List Char → Prop) (hpar : ∀ p ∈ paras, Q p) :
    ∀ g ∈ chunkGroups paras chunk_size, ∀ p ∈ g, Q p := by
  have h := chunkStep_fold_pred chunk_size Q paras [] [] 0 (by simp) (by simp) hpar
  rw [show paras.foldl (chunkStep chunk_size) ([], [], 0) =
        chunkFold paras chunk_size from rfl] at h
  unfold chunkGroups
  split
  · intro g hg
    rcases List.mem_append.mp hg with hg | hg
    · exact h.1 g hg
    · simp only [List.mem_singleton] at hg
      exact hg ▸ h.2
  · exact h.1

/-- Claim C3, as stated, is false: with `S = 3` and text `"a\nb\nc"`, the
single returned chunk has length `5 > 3` yet consists of three paragraphs,
not of exactly one oversized paragraph (the code counts only paragraph
characters, not the `'\n'` separators, against the target size). -/
theorem c3_chunk_bound_counterexample :
    split_content ('a' :: '\n' :: 'b' :: '\n' :: 'c' :: []) 3 =
        [('a' :: '\n' :: 'b' :: '\n' :: 'c' :: [])] ∧
      3 < ('a' :: '\n' :: 'b' :: '\n' :: 'c' :: []).length ∧
      (splitNl ('a' :: '\n' :: 'b' :: '\n' :: 'c' :: [])).length = 3 := by
  decide

/-- Claim C3 (amended): for every text `T` and target `S`, each chunk
returned by `split(T, S)` has total paragraph length (the chunk's length not
counting the newline separators between its paragraphs) at most `S`, except
chunks consisting of exactly one paragraph whose own length exceeds `S`. -/
theorem c3_chunk_bound (text : List Char) (chunk_size : Nat) (c : List Char)
    (hc : c ∈ split_content text chunk_size) :
    ((splitNl c).map List.length).sum ≤ chunk_size ∨
      ((splitNl c).length = 1 ∧ chunk_size < c.length) := by
  rw [split_content_eq_chunkGroups] at hc
  rcases List.mem_map.mp hc with ⟨g, hg, rfl⟩
  have hne : g ≠ [] := chunkGroups_ne_nil _ _ g hg
  have hnl : ∀ p ∈ g, '\n' ∉ p :=
    chunkGroups_pred (splitNl text) chunk_size _ (nl_not_mem_splitNl text) g hg
  have hsplit : splitNl (joinNl g) = g := splitNl_joinNl g hne hnl
  rcases chunkGroups_bound (splitNl text) chunk_size g hg with hb | ⟨p, hp, hlt⟩
  · exact Or.inl (by rw [hsplit]; exact hb)
  · refine Or.inr ⟨by rw [hsplit, hp]; rfl, ?_⟩
    subst hp
    simpa [joinNl] using hlt

theorem c3_chunk_bound_witness :
    ((splitNl ('a' :: 'b' :: [])).map List.length).sum ≤ 2 ∨
      ((splitNl ('a' :: 'b' :: [])).length = 1 ∧
        2 < ('a' :: 'b' :: []).length) :=
  c3_chunk_bound ('a' :: 'b' :: '\n' :: 'c' :: 'd' :: []) 2 ('a' :: 'b' :: [])
    (by decide)

/-- Claim C4: for every text `T` and target `S`, joining the chunks of
`split(T, S)` back together with the newline paragraph separator reproduces
`T` exactly; no content is dropped or reordered. -/
theorem c4_chunk_integrity (text : List Char) (chunk_size : Nat) :
    joinNl (split_content text chunk_size) = text := by
  rw [split_content_eq_chunkGroups,
    joinNl_map_joinNl _ (chunkGroups_ne_nil _ _),
    chunkGroups_flatten, joinNl_splitNl]

/-! ### The boundary reconciler (`pdf_parse.parse_pdf`, second pass)

```python
for page_num in range(total_pages):
    current_text = all_pages_text[page_num]
    if page_num > 0 and current_text and all_pages_text[page_num - 1]:
        prev_text = all_pages_text[page_num - 1]
        if prev_text and not prev_text[-1] in '。！？.!?':
            prev_paragraphs = prev_text.split('\n')
            last_paragraph = prev_paragraphs[-1] if prev_paragraphs else ""
            if last_paragraph:
                current_text = last_paragraph + current_text
    if page_num < total_pages - 1 and current_text and all_pages_text[page_num + 1]:
        next_text = all_pages_text[page_num + 1]
        if current_text and not current_text[-1] in '。！？.!?':
            next_paragraphs = next_text.split('\n')
            first_paragraph = next_paragraphs[0] if next_paragraphs else ""
            if first_paragraph:
                current_text = current_text + first_paragraph
```
`all_pages_text` is the list of raw (stripped) page texts collected in the
first pass; it is never written back to, so both neighbours are read raw. -/

/-- Sentence-terminal punctuation list of `pdf_parse`: `'。！？.!?'`. -/
def terminalMarks : List Char := ['。', '！', '？', '.', '!', '?']

/-- Python `text and text[-1] in '。！？.!?'`: whether a text is non-empty
and its final character is a sentence-terminal mark. -/
def endsTerminal (s : List Char) : Bool :=
  match s.getLast? with
  | some c => terminalMarks.contains c
  | none => false

/-- First half of the loop body: possibly prepend the previous raw page's
last paragraph to `current`. -/
def prependStep (pages : List (List Char)) (i : Nat) (current : List Char) :
    List Char :=
  if 0 < i ∧ current ≠ [] ∧ pages.getD (i - 1) [] ≠ [] then
    if endsTerminal (pages.getD (i - 1) []) = false then
      if ((splitNl (pages.getD (i - 1) [])).getLast?).getD [] ≠ [] then
        ((splitNl (pages.getD (i - 1) [])).getLast?).getD [] ++ current
      else current
    else current
  else current

/-- Second half of the loop body: possibly append the next raw page's first
paragraph to `current` (which has already been through `prependStep`). -/
def appendStep (pages : List (List Char)) (total : Nat) (i : Nat)
    (current : List Char) : List Char :=
  if i + 1 < total ∧ current ≠ [] ∧ pages.getD (i + 1) [] ≠ [] then
    if endsTerminal current = false then
      if ((splitNl (pages.getD (i + 1) [])).head?).getD [] ≠ [] then
        current ++ ((splitNl (pages.getD (i + 1) [])).head?).getD []
      else current
    else current
  else current

/-- The corrected text of page `i` (0-based), as computed by the loop body. -/
def reconcileAt (pages : List (List Char)) (i : Nat) : List Char :=
  appendStep pages pages.length i (prependStep pages i (pages.getD i []))

/-- The whole reconciliation pass: one corrected text per raw page. -/
def reconcile (pages : List (List Char)) : List (List Char) :=
  (List.range pages.length).map (reconcileAt pages)

theorem length_reconcile (pages : List (List Char)) :
    (reconcile pages).length = pages.length := by
  simp [reconcile]

theorem reconcile_getD (pages : List (List Char)) (i : Nat)
    (hi : i < pages.length) :
    (reconcile pages).getD i [] = reconcileAt pages i := by
  rw [List.getD_eq_getElem _ _ (by simpa [length_reconcile] using hi)]
  simp [reconcile]

theorem getD_mem_of_lt (l : List (List Char)) (i : Nat) (hi : i < l.length) :
    l.getD i [] ∈ l := by
  rw [List.getD_eq_getElem _ _ hi]
  exact List.getElem_mem hi

/-- If every non-empty page already ends in terminal punctuation, the loop
body leaves page `i` unchanged. -/
theorem reconcileAt_of_terminal (pages : List (List Char))
    (h : ∀ p ∈ pages, p ≠ [] → endsTerminal p = true)
    (i : Nat) (hi : i < pages.length) :
    reconcileAt pages i = pages.getD i [] := by
  have hpre : prependStep pages i (pages.getD i []) = pages.getD i [] := by
    rw [prependStep]
    split
    · rename_i hcond
      have hprev : pages.getD (i - 1) [] ∈ pages :=
        getD_mem_of_lt pages (i - 1) (by omega)
      rw [if_neg (by rw [h _ hprev hcond.2.2]; simp)]
    · rfl
  rw [reconcileAt, hpre, appendStep]
  split
  · rename_i hcond
    have hcur : pages.getD i [] ∈ pages := getD_mem_of_lt pages i hi
    rw [if_neg (by rw [h _ hcur hcond.2.1]; simp)]
  · rfl

/-- Claim C7: on a page sequence in which every non-empty page ends in one of
the terminal marks `。！？.!?`, reconciliation is a no-op. -/
theorem c7_reconcile_noop (pages : List (List Char))
    (h : ∀ p ∈ pages, p ≠ [] → endsTerminal p = true) :
    reconcile pages = pages := by
  apply List.ext_getElem (by simp [length_reconcile])
  intro i h1 h2
  have hi : i < pages.length := h2
  calc (reconcile pages)[i] = (reconcile pages).getD i [] := by
        rw [List.getD_eq_getElem _ _ h1]
      _ = reconcileAt pages i := reconcile_getD pages i hi
      _ = pages.getD i [] := reconcileAt_of_terminal pages h i hi
      _ = pages[i] := List.getD_eq_getElem _ _ hi

theorem c7_reconcile_noop_witness :
    reconcile [('a' :: '.' :: []), [], ('b' :: '!' :: [])] =
      [('a' :: '.' :: []), [], ('b' :: '!' :: [])] :=
  c7_reconcile_noop [('a' :: '.' :: []), [], ('b' :: '!' :: [])] (by decide)

/-- Claim C5, as stated, is false on the code: for the 3-page document
`"春风吹。"`, `"花开"`, `"了。"` the reconciler does NOT leave page 3 equal to
its raw text `"了。"` (because raw page 2 does not end in terminal
punctuation, page 2's last paragraph is prepended to page 3). -/
theorem c5_scenario_counterexample :
    reconcile
        [('春' :: '风' :: '吹' :: '。' :: []), ('花' :: '开' :: []),
          ('了' :: '。' :: [])] ≠
      [('春' :: '风' :: '吹' :: '。' :: []), ('花' :: '开' :: '了' :: '。' :: []),
        ('了' :: '。' :: [])] := by
  decide

/-- Claim C5 (amended): on the 3-page document `"春风吹。"`, `"花开"`, `"了。"`
the corrected pages are `"春风吹。"` (unchanged), `"花开了。"` (page 3's first
paragraph appended), and `"花开了。"` for page 3 as well: since raw page 2
does not end in terminal punctuation, page 2's last paragraph `"花开"` is
prepended to page 3's text `"了。"`. -/
theorem c5_scenario :
    reconcile
        [('春' :: '风' :: '吹' :: '。' :: []), ('花' :: '开' :: []),
          ('了' :: '。' :: [])] =
      [('春' :: '风' :: '吹' :: '。' :: []), ('花' :: '开' :: '了' :: '。' :: []),
        ('花' :: '开' :: '了' :: '。' :: [])] := by
  decide

/-- As `prependStep`, but taking the predecessor text directly. -/
def prependFrom (prev current : List Char) : List Char :=
  if current ≠ [] ∧ prev ≠ [] then
    if endsTerminal prev = false then
      if ((splitNl prev).getLast?).getD [] ≠ [] then
        ((splitNl prev).getLast?).getD [] ++ current
      else current
    else current
  else current

/-- Modelled from the spec (claim C6): a reconciler whose prepend step reads
the corrected-so-far text of page `i-1` instead of its raw text; everything
else is as in the code. Used only to compare against `reconcile`. -/
def reconcileCorrectedPrev (pages : List (List Char)) : List (List Char) :=
  (List.range pages.length).foldl
    (fun acc i =>
      acc ++
        [appendStep pages pages.length i
          (if 0 < i then prependFrom (acc.getD (i - 1) []) (pages.getD i [])
           else pages.getD i [])])
    []

/-- Claim C6, as stated, is false on the code: on pages `"x"`, `"y"`, `"z。"`
the code prepends the RAW text of the predecessor, not its corrected-so-far
text, so the two semantics disagree (code: page 2 becomes `"xyz。"`, the
corrected-so-far reading would give `"xyyz。"`). -/
theorem c6_prepend_counterexample :
    reconcile [('x' :: []), ('y' :: []), ('z' :: '。' :: [])] =
        [('x' :: 'y' :: []), ('x' :: 'y' :: 'z' :: '。' :: []),
          ('y' :: 'z' :: '。' :: [])] ∧
      reconcileCorrectedPrev [('x' :: []), ('y' :: []), ('z' :: '。' :: [])] =
        [('x' :: 'y' :: []), ('x' :: 'y' :: 'y' :: 'z' :: '。' :: []),
          ('z' :: '。' :: [])] ∧
      reconcile [('x' :: []), ('y' :: []), ('z' :: '。' :: [])] ≠
        reconcileCorrectedPrev [('x' :: []), ('y' :: []), ('z' :: '。' :: [])] := by
  refine ⟨by decide, by decide, by decide⟩

/-- Claim C6 (amended): for every page `i > 0` with non-empty text whose
predecessor's RAW text is non-empty, does not end in a terminal mark, and has
a non-empty last paragraph, the reconciler prepends that last paragraph of
the predecessor's raw text (corrections to earlier pages are never fed back)
and then applies the append step. -/
theorem c6_prepend_raw (pages : List (List Char)) (i : Nat)
    (hi : i < pages.length) (h0 : 0 < i)
    (hc : pages.getD i [] ≠ [])
    (hp : pages.getD (i - 1) [] ≠ [])
    (ht : endsTerminal (pages.getD (i - 1) []) = false)
    (hl : ((splitNl (pages.getD (i - 1) [])).getLast?).getD [] ≠ []) :
    (reconcile pages).getD i [] =
      appendStep pages pages.length i
        (((splitNl (pages.getD (i - 1) [])).getLast?).getD [] ++
          pages.getD i []) := by
  rw [reconcile_getD pages i hi, reconcileAt, prependStep,
    if_pos ⟨h0, hc, hp⟩, if_pos ht, if_pos hl]

theorem c6_prepend_raw_witness :
    (reconcile [('x' :: []), ('y' :: []), ('z' :: '。' :: [])]).getD 1 [] =
      appendStep [('x' :: []), ('y' :: []), ('z' :: '。' :: [])]
        [('x' :: []), ('y' :: []), ('z' :: '。' :: [])].length 1
        (((splitNl
              ([('x' :: []), ('y' :: []), ('z' :: '。' :: [])].getD (1 - 1)
                [])).getLast?).getD [] ++
          [('x' :: []), ('y' :: []), ('z' :: '。' :: [])].getD 1 []) :=
  c6_prepend_raw [('x' :: []), ('y' :: []), ('z' :: '。' :: [])] 1 (by decide)
    (by decide) (by decide) (by decide) (by decide) (by decide)

/-! ### Page accounting of `parse_pdf` (claim C9)

First pass (`pdf_parse.py` lines 33-42): for every page, try to extract its
text; on failure append `""` as a placeholder.  The fallible read is
modelled by an `Option`: `none` is a read that threw.

Second pass (lines 46-109): the whole per-page body (reconciliation, record
construction, file write) runs inside a `try`; the per-page `except`
handler (lines 95-109) writes a record with empty `content` instead, and
the loop continues.  Whether the body for page `i` throws is modelled by a
failure oracle `procFail : Nat → Bool`. -/

/-- The list of raw page texts after the first pass: a failed read is
substituted with the empty string. -/
def collectTexts (reads : List (Option (List Char))) : List (List Char) :=
  reads.map (fun r => r.getD [])

/-- One saved per-page JSON record of `parse_pdf`. -/
structure PageRecord where
  page_number : Nat
  content : List Char
  total_pages : Nat

/-- The records written by `parse_pdf`'s second pass, one per page:
normally the reconciled text; when the body for that page throws
(`procFail i = true`), the `except` handler's record with empty content,
the same 1-based page number and the same total count. -/
def parsePdfRecords (reads : List (Option (List Char)))
    (procFail : Nat → Bool) : List PageRecord :=
  (List.range (collectTexts reads).length).map (fun i =>
    if procFail i then ⟨i + 1, [], (collectTexts reads).length⟩
    else ⟨i + 1, reconcileAt (collectTexts reads) i,
      (collectTexts reads).length⟩)

/-- Claim C9: for every document of `N` pages, even when some page reads
fail and the second-pass processing of some pages throws, `parse_pdf`
produces exactly `N` records, with page numbers `1..N`, each carrying the
correct total count; a page whose processing threw gets the empty-content
record, and a failed read is treated exactly as a page whose text is
empty. -/
theorem c9_page_accounting (reads : List (Option (List Char)))
    (procFail : Nat → Bool) :
    (parsePdfRecords reads procFail).length = reads.length ∧
      (parsePdfRecords reads procFail).map (fun r => r.page_number) =
        List.range' 1 reads.length ∧
      (∀ r ∈ parsePdfRecords reads procFail, r.total_pages = reads.length) ∧
      (∀ i, i < reads.length → procFail i = true →
        (parsePdfRecords reads procFail).getD i ⟨0, [], 0⟩ =
          ⟨i + 1, [], reads.length⟩) ∧
      parsePdfRecords reads procFail =
        parsePdfRecords (reads.map (fun r => some (r.getD []))) procFail := by
  refine ⟨by simp [parsePdfRecords, collectTexts], ?_, ?_, ?_, ?_⟩
  · rw [List.range'_eq_map_range]
    simp only [parsePdfRecords, List.map_map, collectTexts, List.length_map]
    apply List.map_congr_left
    intro a _
    simp only [Function.comp]
    split <;> simp [Nat.add_comm]
  · intro r hr
    simp only [parsePdfRecords, List.mem_map] at hr
    rcases hr with ⟨i, _, rfl⟩
    split <;> simp [collectTexts]
  · intro i hi hpf
    rw [List.getD_eq_getElem _ _
      (by simpa [parsePdfRecords, collectTexts] using hi)]
    simp [parsePdfRecords, collectTexts, hpf]
  · have hsame : collectTexts (reads.map (fun r => some (r.getD []))) =
        collectTexts reads := by
      simp [collectTexts, List.map_map]
    simp [parsePdfRecords, hsame]

/-! ### The output aggregator (`extract_literary.OutputManager`)

State of one `OutputManager`: `current_batch` (pending results),
`batch_count` (number of flushed temporary files) and `temp_files`.
Temporary files are named `temp_batch_{count:03d}.txt`; all live in the same
per-document directory, so the shared path prefix does not affect how
Python's `sorted` orders them.  A file's bytes and a final file's bytes are
modelled as `List Char`; file names, compared lexicographically by
Python's `sorted`, are modelled as lists of code points. -/

/-- An extraction result as forwarded to the output manager:
`(page_number, content)`. -/
abbrev ExtractionResult := Nat × List Char

/-- Code points of a string, for modelling file names. -/
def strCodes (s : String) : List Nat := s.data.map (fun c => c.toNat)

/-- Python `f"{n:03d}"` as code points: zero-padded to width 3. -/
def pad3 (n : Nat) : List Nat :=
  if n < 1000 then [48 + n / 100, 48 + n / 10 % 10, 48 + n % 10]
  else strCodes (toString n)

/-- The temporary batch file name `temp_batch_{seq:03d}.txt`. -/
def tempName (seq : Nat) : List Nat :=
  strCodes "temp_batch_" ++ (pad3 seq ++ strCodes ".txt")

/-- Lexicographic comparison of code-point lists: Python's `<=` on the
corresponding strings (a proper prefix compares smaller). -/
def lexLe : List Nat → List Nat → Bool
  | [], _ => true
  | _ :: _, [] => false
  | a :: x, b :: y =>
    if a < b then true else if b < a then false else lexLe x y

/-- One temporary batch file: its name and the result sections it holds, in
the order `_write_batch` wrote them. -/
structure TempFile where
  name : List Nat
  sections : List ExtractionResult
deriving DecidableEq

/-- The mutable state of one `OutputManager`. -/
structure OMState where
  current_batch : List ExtractionResult
  batch_count : Nat
  temp_files : List TempFile

/-- A fresh `OutputManager`. -/
def initOM : OMState := ⟨[], 0, []⟩

/-- Embedding of `OutputManager.add_content`: record only non-empty
content. -/
def add_content (st : OMState) (page_number : Nat) (content : List Char) :
    OMState :=
  if content ≠ [] then
    ⟨st.current_batch ++ [(page_number, content)], st.batch_count,
      st.temp_files⟩
  else st

/-- Embedding of `OutputManager._write_batch`: it orders a batch with the stable
`sorted(batch, key=lambda x: x[0])`, modelled by the stable
`List.insertionSort` on the page number. -/
def writeBatch (batch : List ExtractionResult) : List ExtractionResult :=
  List.insertionSort (fun a b => a.1 ≤ b.1) batch

/-- The bytes written for one result, identical in both modes:
`"\n=== 第{page}页 ===\n"`, the content, then `"\n"`. -/
def renderSection (r : ExtractionResult) : List Char :=
  "\n=== 第".data ++ Nat.toDigits 10 r.1 ++ "页 ===\n".data ++ r.2 ++ "\n".data

/-- The bytes of one temporary file as `_write_batch` leaves them. -/
def tempFileContent (f : TempFile) : List Char :=
  (f.sections.map renderSection).flatten

/-- Embedding of `OutputManager.dump_interval_batch`: flush the current
batch, if any, to
a new numbered temporary file. -/
def dump_interval_batch (st : OMState) : OMState :=
  if st.current_batch = [] then st
  else
    ⟨[], st.batch_count + 1,
      st.temp_files ++
        [⟨tempName (st.batch_count + 1), writeBatch st.current_batch⟩]⟩

/-- Embedding of `sorted(self.temp_files)` in `merge_and_cleanup`:
lexicographic on the
file names. -/
def sortTempFiles (files : List TempFile) : List TempFile :=
  List.insertionSort (fun f g => lexLe f.name g.name = true) files

/-- Embedding of `OutputManager.merge_and_cleanup`: returns `none` when no
output file is
created (no temporary files and nothing pending); otherwise the final file's
bytes: the concatenation of the temporary files' bytes in sorted name
order, after a last flush of any pending batch. -/
def merge_and_cleanup (st : OMState) : Option (List Char) :=
  if st.temp_files = [] ∧ st.current_batch = [] then none
  else
    some
      (((sortTempFiles (dump_interval_batch st).temp_files).map
        tempFileContent).flatten)

/-- The final file of `merge_and_cleanup` as a list of sections rather than
bytes (same structure, before rendering each section). -/
def merge_sections (st : OMState) : Option (List ExtractionResult) :=
  if st.temp_files = [] ∧ st.current_batch = [] then none
  else
    some
      (((sortTempFiles (dump_interval_batch st).temp_files).map
        (fun f => f.sections)).flatten)

/-- Embedding of `OutputManager.append_to_file`: `none` models a file that
was never
created; opening in Python append mode creates it on the first non-empty
write. -/
def append_to_file (file : Option (List Char)) (page_number : Nat)
    (content : List Char) : Option (List Char) :=
  if content = [] then file
  else some (file.getD [] ++ renderSection (page_number, content))

/-- Append mode over one run: each result is appended in processing order;
empty results are skipped. -/
def runAppend (results : List ExtractionResult) : Option (List Char) :=
  results.foldl (fun f r => append_to_file f r.1 r.2) none

/-- One iteration of the batch branch of `process_pages`: add the result,
bump `pages_processed`, flush when the dump interval divides it. -/
def batchStep (dump_interval : Nat) (s : OMState × Nat)
    (r : ExtractionResult) : OMState × Nat :=
  ((if (s.2 + 1) % dump_interval = 0 then
      dump_interval_batch (add_content s.1 r.1 r.2)
    else add_content s.1 r.1 r.2), s.2 + 1)

/-- Batch mode over one run: the manager state after processing all
results. -/
def runBatch (results : List ExtractionResult) (dump_interval : Nat) :
    OMState :=
  (results.foldl (batchStep dump_interval) (initOM, 0)).1

/-- Batch mode over one run followed by the final merge: the final file's
bytes, or `none` when no file is created. -/
def runBatchOutput (results : List ExtractionResult) (dump_interval : Nat) :
    Option (List Char) :=
  merge_and_cleanup (runBatch results dump_interval)

/-- Batch mode over one run followed by the final merge, at section level. -/
def runBatchSections (results : List ExtractionResult) (dump_interval : Nat) :
    Option (List ExtractionResult) :=
  merge_sections (runBatch results dump_interval)

theorem flatten_map_flatten {α β : Type} (L : List (List α)) (f : α → List β) :
    (L.map (fun l => (l.map f).flatten)).flatten = ((L.flatten).map f).flatten := by
  induction L with
  | nil => rfl
  | cons l t ih => simp [List.map_append, List.flatten_append, ih]

/-- The byte-level merge result is the section-level merge result rendered
section by section. -/
theorem merge_and_cleanup_eq_sections (st : OMState) :
    merge_and_cleanup st =
      (merge_sections st).map (fun secs => (secs.map renderSection).flatten) := by
  unfold merge_and_cleanup merge_sections
  split
  · rfl
  · rw [Option.map_some']
    congr 1
    rw [← flatten_map_flatten, List.map_map]
    rfl

/-- Claim C10: if every result of a run is empty, neither mode ever creates
the final output file: append mode skips every write, batch mode never fills
a batch and the merge returns before creating the file. -/
theorem c10_no_file_on_all_empty (results : List ExtractionResult)
    (dump_interval : Nat) (h : ∀ r ∈ results, r.2 = []) :
    runAppend results = none ∧ runBatchOutput results dump_interval = none := by
  constructor
  · suffices hgen : ∀ l : List ExtractionResult, (∀ r ∈ l, r.2 = []) →
        l.foldl (fun f r => append_to_file f r.1 r.2) none = none from
      hgen results h
    intro l hl
    induction l with
    | nil => rfl
    | cons r t ih =>
      rw [List.foldl_cons,
        show append_to_file none r.1 r.2 = none from by
          rw [append_to_file, if_pos (hl r (by simp))]]
      exact ih (fun x hx => hl x (List.mem_cons_of_mem _ hx))
  · suffices hgen : ∀ (l : List ExtractionResult) (c : Nat),
        (∀ r ∈ l, r.2 = []) →
        (l.foldl (batchStep dump_interval) (initOM, c)).1 = initOM by
      rw [runBatchOutput, runBatch, hgen results 0 h, merge_and_cleanup,
        if_pos ⟨rfl, rfl⟩]
    intro l
    induction l with
    | nil => intro c _; rfl
    | cons r t ih =>
      intro c hl
      rw [List.foldl_cons]
      have hadd : add_content initOM r.1 r.2 = initOM := by
        rw [add_content, if_neg]
        simp [hl r (by simp)]
      have hstep : batchStep dump_interval (initOM, c) r = (initOM, c + 1) := by
        rw [batchStep, hadd]
        split
        · rfl
        · rfl
      rw [hstep]
      exact ih (c + 1) (fun x hx => hl x (List.mem_cons_of_mem _ hx))

theorem c10_no_file_on_all_empty_witness :
    runAppend [(1, ([] : List Char)), (2, ([] : List Char))] = none ∧
      runBatchOutput [(1, ([] : List Char)), (2, ([] : List Char))] 5 = none :=
  c10_no_file_on_all_empty [(1, []), (2, [])] 5 (by decide)

/-! ### Range resolution of `process_pages` (lines 304-311)

```python
actual_start = 1 if start_page is None else max(1, min(start_page, total_pages))
actual_end = total_pages if end_page is None else min(end_page, total_pages)
if actual_start > actual_end:
    print(...)
    continue          # aborts this document only
```
-/

/-- Embedding of `actual_start`: a `None` start defaults to 1, otherwise it
is clamped into
`[1, total_pages]`. -/
def actual_start (start_page : Option Int) (total_pages : Nat) : Int :=
  match start_page with
  | none => 1
  | some s => max 1 (min s (total_pages : Int))

/-- Embedding of `actual_end`: a `None` end defaults to `total_pages`,
otherwise it is clamped from
above only (`min(end_page, total_pages)` — no lower clamp). -/
def actual_end (end_page : Option Int) (total_pages : Nat) : Int :=
  match end_page with
  | none => (total_pages : Int)
  | some e => min e (total_pages : Int)

/-- Range resolution of `process_pages`: `error` models the
`InvalidRangeError` path (`continue`, aborting this document only). -/
def resolveRange (start_page end_page : Option Int) (total_pages : Nat) :
    Except Unit (Int × Int) :=
  if actual_start start_page total_pages > actual_end end_page total_pages then
    Except.error ()
  else
    Except.ok (actual_start start_page total_pages,
      actual_end end_page total_pages)

/-- Modelled from the spec (claim C2): a resolver that clamps BOTH bounds
into `[1, totalUnits]`, as the claim asserts.  Used only to compare against
`resolveRange`. -/
def resolveRangeClaim (start_page end_page : Option Int) (total_pages : Nat) :
    Except Unit (Int × Int) :=
  if max 1 (min (start_page.getD 1) (total_pages : Int)) >
      max 1 (min (end_page.getD (total_pages : Int)) (total_pages : Int)) then
    Except.error ()
  else
    Except.ok (max 1 (min (start_page.getD 1) (total_pages : Int)),
      max 1 (min (end_page.getD (total_pages : Int)) (total_pages : Int)))

/-- Claim C2, as stated, is false on the code: a requested end below 1 is
NOT clamped up to 1.  At `resolve(None, 0, 10)` the claimed semantics
succeeds with `{1, 1}`, but the code computes `actual_end = 0 < 1 =
actual_start` and fails. -/
theorem c2_range_counterexample :
    resolveRange none (some 0) 10 = Except.error () ∧
      resolveRangeClaim none (some 0) 10 = Except.ok (1, 1) := by
  constructor
  · rfl
  · rfl

/-- Claim C2 (amended): `None` start defaults to 1 and `None` end to
`totalUnits`; the start is clamped into `[1, totalUnits]` but the end is
only clamped from above (`min(end, totalUnits)`, no lower clamp); resolution
fails (aborting only the current document) exactly when the clamped start
exceeds the clamped end.  The three examples of the claim hold as stated. -/
theorem c2_range_resolution (s e : Int) (total : Nat) (h : 1 ≤ total) :
    (resolveRange (some s) (some e) total = Except.error () ↔
        min e (total : Int) < max 1 (min s (total : Int))) ∧
      (¬ min e (total : Int) < max 1 (min s (total : Int)) →
        resolveRange (some s) (some e) total =
          Except.ok (max 1 (min s (total : Int)), min e (total : Int))) ∧
      (1 ≤ max 1 (min s (total : Int)) ∧
        max 1 (min s (total : Int)) ≤ (total : Int)) ∧
      resolveRange none (some e) total = resolveRange (some 1) (some e) total ∧
      resolveRange (some s) none total =
        resolveRange (some s) (some (total : Int)) total ∧
      resolveRange (some 0) (some 1000) 10 = Except.ok (1, 10) ∧
      resolveRange (some 3) (some 2) 10 = Except.error () ∧
      resolveRange none none 7 = Except.ok (1, 7) := by
  have hs1 : actual_start (some 1) total = 1 := by
    simp only [actual_start]
    omega
  have het : actual_end (some (total : Int)) total = (total : Int) := by
    simp only [actual_end]
    omega
  refine ⟨?_, ?_, ?_, ?_, ?_, rfl, rfl, rfl⟩
  · unfold resolveRange actual_start actual_end
    split
    · rename_i hc
      simpa using hc
    · rename_i hc
      constructor
      · intro heq
        exact absurd heq (by simp)
      · intro hlt
        exact absurd hlt hc
  · intro hle
    unfold resolveRange actual_start actual_end
    rw [if_neg hle]
  · constructor
    · exact le_max_left _ _
    · have : (1 : Int) ≤ (total : Int) := by exact_mod_cast h
      omega
  · have hs0 : actual_start none total = 1 := rfl
    unfold resolveRange
    rw [hs0, hs1]
  · have he0 : actual_end none total = (total : Int) := rfl
    unfold resolveRange
    rw [he0, het]

theorem c2_range_resolution_witness :
    (resolveRange (some 0) (some 5) 3 = Except.error () ↔
        min (5 : Int) ((3 : Nat) : Int) < max 1 (min 0 ((3 : Nat) : Int))) ∧
      (¬ min (5 : Int) ((3 : Nat) : Int) < max 1 (min 0 ((3 : Nat) : Int)) →
        resolveRange (some 0) (some 5) 3 =
          Except.ok (max 1 (min 0 ((3 : Nat) : Int)),
            min (5 : Int) ((3 : Nat) : Int))) ∧
      (1 ≤ max 1 (min (0 : Int) ((3 : Nat) : Int)) ∧
        max 1 (min (0 : Int) ((3 : Nat) : Int)) ≤ ((3 : Nat) : Int)) ∧
      resolveRange none (some 5) 3 = resolveRange (some 1) (some 5) 3 ∧
      resolveRange (some 0) none 3 =
        resolveRange (some 0) (some ((3 : Nat) : Int)) 3 ∧
      resolveRange (some 0) (some 1000) 10 = Except.ok (1, 10) ∧
      resolveRange (some 3) (some 2) 10 = Except.error () ∧
      resolveRange none none 7 = Except.ok (1, 7) :=
  c2_range_resolution 0 5 3 (by decide)

/-! ### Mode equivalence (claim C8) -/

theorem append_fold_some (l : List ExtractionResult) (acc : List Char)
    (h : ∀ r ∈ l, r.2 ≠ []) :
    l.foldl (fun f r => append_to_file f r.1 r.2) (some acc) =
      some (acc ++ (l.map renderSection).flatten) := by
  induction l generalizing acc with
  | nil => simp
  | cons r t ih =>
    rw [List.foldl_cons,
      show append_to_file (some acc) r.1 r.2 = some (acc ++ renderSection r)
        from by rw [append_to_file, if_neg (h r (by simp))]; rfl,
      ih (acc ++ renderSection r) (fun x hx => h x (List.mem_cons_of_mem _ hx))]
    simp

/-- With only non-empty results, the append-mode file is the concatenation
of the rendered sections in processing order. -/
theorem runAppend_eq (results : List ExtractionResult)
    (hne : results ≠ []) (h : ∀ r ∈ results, r.2 ≠ []) :
    runAppend results = some ((results.map renderSection).flatten) := by
  cases results with
  | nil => exact absurd rfl hne
  | cons r t =>
    rw [runAppend, List.foldl_cons,
      show append_to_file none r.1 r.2 = some ([] ++ renderSection r)
        from by rw [append_to_file, if_neg (h r (by simp))]; rfl,
      append_fold_some t _ (fun x hx => h x (List.mem_cons_of_mem _ hx))]
    simp

/-- If the counter never hits the dump interval along the way, the batch
loop only accumulates. -/
theorem batch_fold_no_dump (dump_interval : Nat) :
    ∀ (l : List ExtractionResult) (st : OMState) (c : Nat),
      (∀ j, c < j → j ≤ c + l.length → j % dump_interval ≠ 0) →
      l.foldl (batchStep dump_interval) (st, c) =
        (l.foldl (fun s r => add_content s r.1 r.2) st, c + l.length) := by
  intro l
  induction l with
  | nil => intro st c _; simp
  | cons r t ih =>
    intro st c h
    rw [List.foldl_cons, List.foldl_cons]
    have hmod : (c + 1) % dump_interval ≠ 0 :=
      h (c + 1) (by omega) (by simp only [List.length_cons]; omega)
    rw [show batchStep dump_interval (st, c) r = (add_content st r.1 r.2, c + 1)
        from by rw [batchStep, if_neg hmod],
      ih (add_content st r.1 r.2) (c + 1)
        (fun j h1 h2 => h j (by omega)
          (by simp only [List.length_cons] at h2 ⊢; omega))]
    congr 1
    simp only [List.length_cons]
    omega

theorem add_content_fold (l : List ExtractionResult) :
    ∀ st : OMState, (∀ r ∈ l, r.2 ≠ []) →
      l.foldl (fun s r => add_content s r.1 r.2) st =
        ⟨st.current_batch ++ l, st.batch_count, st.temp_files⟩ := by
  induction l with
  | nil => intro st _; simp
  | cons r t ih =>
    intro st h
    rw [List.foldl_cons,
      show add_content st r.1 r.2 =
          ⟨st.current_batch ++ [r], st.batch_count, st.temp_files⟩
        from by rw [add_content, if_pos (h r (by simp))],
      ih _ (fun x hx => h x (List.mem_cons_of_mem _ hx))]
    simp

/-- Claim C8, as stated, is false: for the same set of non-empty results,
if the processing order is not ascending in page number the two modes
produce different files — append mode writes in processing order while a
batch is written sorted by page number. -/
theorem c8_mode_equivalence_counterexample :
    runAppend [(2, ('b' :: [])), (1, ('a' :: []))] ≠
      runBatchOutput [(2, ('b' :: [])), (1, ('a' :: []))] 2 := by
  decide

/-- Claim C8 (amended): for every non-empty set of non-empty results
processed in ascending page order (as the sequential driver does), append
mode and batch mode with flush interval equal to the result count produce
byte-identical final files. -/
theorem c8_mode_equivalence (results : List ExtractionResult)
    (hne : results ≠ [])
    (hsorted : List.Pairwise (fun a b : ExtractionResult => a.1 ≤ b.1) results)
    (hcontent : ∀ r ∈ results, r.2 ≠ []) :
    runAppend results = runBatchOutput results results.length := by
  rcases List.eq_nil_or_concat results with rfl | ⟨d, a, rfl⟩
  · exact absurd rfl hne
  simp only [List.concat_eq_append] at hne hsorted hcontent ⊢
  have hca : a.2 ≠ [] := hcontent a (by simp)
  have hcd : ∀ x ∈ d, x.2 ≠ [] := fun x hx => hcontent x (by simp [hx])
  have hlen : (d ++ [a]).length = d.length + 1 := by simp
  rw [hlen]
  have hmid : ∀ j, 0 < j → j ≤ 0 + d.length → j % (d.length + 1) ≠ 0 := by
    intro j h1 h2 hmod
    rw [Nat.mod_eq_of_lt (by omega)] at hmod
    omega
  have hstep : batchStep (d.length + 1) (⟨d, 0, []⟩, d.length) a =
      (⟨[], 1, [⟨tempName 1, writeBatch (d ++ [a])⟩]⟩, d.length + 1) := by
    rw [batchStep]
    simp only [Nat.mod_self, if_pos]
    rw [show add_content ⟨d, 0, []⟩ a.1 a.2 = ⟨d ++ [a], 0, []⟩
        from by rw [add_content, if_pos hca],
      dump_interval_batch, if_neg (by simp)]
    rfl
  have hfold : (d ++ [a]).foldl (batchStep (d.length + 1)) (initOM, 0) =
      (⟨[], 1, [⟨tempName 1, writeBatch (d ++ [a])⟩]⟩, d.length + 1) := by
    rw [List.foldl_append, batch_fold_no_dump (d.length + 1) d initOM 0 hmid,
      add_content_fold d initOM hcd]
    show batchStep (d.length + 1) (⟨[] ++ d, 0, []⟩, 0 + d.length) a = _
    rw [show (⟨[] ++ d, 0, []⟩ : OMState) = ⟨d, 0, []⟩ from by simp,
      show (0 : Nat) + d.length = d.length from by omega, hstep]
  have hwb : writeBatch (d ++ [a]) = d ++ [a] :=
    List.Sorted.insertionSort_eq hsorted
  have hmerge : merge_and_cleanup ⟨[], 1, [⟨tempName 1, d ++ [a]⟩]⟩ =
      some (((d ++ [a]).map renderSection).flatten) := by
    rw [merge_and_cleanup, if_neg (by simp),
      show dump_interval_batch ⟨[], 1, [⟨tempName 1, d ++ [a]⟩]⟩ =
          ⟨[], 1, [⟨tempName 1, d ++ [a]⟩]⟩
        from by rw [dump_interval_batch, if_pos rfl],
      show sortTempFiles [⟨tempName 1, d ++ [a]⟩] = [⟨tempName 1, d ++ [a]⟩]
        from by simp [sortTempFiles, List.insertionSort, List.orderedInsert]]
    simp [tempFileContent]
  rw [runAppend_eq (d ++ [a]) (by simp) hcontent, runBatchOutput, runBatch,
    hfold, hwb, hmerge]

theorem c8_mode_equivalence_witness :
    runAppend [(1, ('a' :: [])), (2, ('b' :: []))] =
      runBatchOutput [(1, ('a' :: [])), (2, ('b' :: []))]
        [(1, ('a' :: [])), (2, ('b' :: []))].length :=
  c8_mode_equivalence [(1, ('a' :: [])), (2, ('b' :: []))] (by decide)
    (by decide) (by decide)

/-! ### Batch ordering (claim C1)

Each flushed batch is written sorted by page number; `merge_and_cleanup`
concatenates the temporary files in lexicographically sorted file-name
order.  The file names `temp_batch_001.txt`, `temp_batch_002.txt`, ... sort
in creation order as long as at most 999 batches were flushed (the
zero-padding is three digits wide). -/

theorem lexLe_refl (x : List Nat) : lexLe x x = true := by
  induction x with
  | nil => rfl
  | cons a t ih => simp [lexLe, Nat.lt_irrefl, ih]

theorem lexLe_append_same (p x y : List Nat) :
    lexLe (p ++ x) (p ++ y) = lexLe x y := by
  induction p with
  | nil => rfl
  | cons a t ih => simp [lexLe, Nat.lt_irrefl, ih]

/-- Temporary file names compare in sequence order up to 999 batches. -/
theorem lexLe_tempName (a b : Nat) (hab : a ≤ b) (hb : b ≤ 999) :
    lexLe (tempName a) (tempName b) = true := by
  rcases Nat.eq_or_lt_of_le hab with rfl | hlt
  · exact lexLe_refl _
  · unfold tempName
    rw [lexLe_append_same]
    unfold pad3
    rw [if_pos (show a < 1000 by omega), if_pos (show b < 1000 by omega)]
    simp only [List.cons_append, List.nil_append]
    simp only [lexLe]
    split_ifs <;> first
      | rfl
      | (exact lexLe_refl _)
      | (exfalso; omega)

theorem pairwise_lt_range' : ∀ (n s : Nat),
    List.Pairwise (fun x y => x < y) (List.range' s n) := by
  intro n
  induction n with
  | zero => intro s; simp
  | succ m ih =>
    intro s
    rw [List.range'_succ]
    refine List.Pairwise.cons ?_ (ih (s + 1))
    intro b hb
    have := (List.mem_range'_1.mp hb).1
    omega

/-- The names of the first `k ≤ 999` temporary files are pairwise in
lexicographic order. -/
theorem pairwise_tempNames (k : Nat) (hk : k ≤ 999) :
    List.Pairwise (fun x y : List Nat => lexLe x y = true)
      ((List.range' 1 k).map tempName) := by
  rw [List.pairwise_map]
  refine (pairwise_lt_range' k 1).imp_of_mem ?_
  intro x y hx hy hxy
  have hyb := (List.mem_range'_1.mp hy).2
  exact lexLe_tempName x y (by omega) (by omega)

theorem le_length_flatten {α : Type} (L : List (List α))
    (h : ∀ l ∈ L, l ≠ []) : L.length ≤ L.flatten.length := by
  induction L with
  | nil => simp
  | cons l t ih =>
    have hl : l ≠ [] := h l (by simp)
    have h1 : 1 ≤ l.length := by
      cases l with
      | nil => exact absurd rfl hl
      | cons x xs => simp
    have := ih (fun x hx => h x (List.mem_cons_of_mem _ hx))
    simp only [List.flatten_cons, List.length_cons, List.length_append]
    omega

theorem dump_current_nil (st : OMState) :
    (dump_interval_batch st).current_batch = [] := by
  rw [dump_interval_batch]
  split
  · rename_i h
    exact h
  · rfl

/-- All result sections held by the manager, in on-disk order: flushed
files first (in creation order), then the pending batch. -/
def allSections (st : OMState) : List ExtractionResult :=
  (st.temp_files.map (fun f => f.sections)).flatten ++ st.current_batch

/-- Run invariant of the output manager: the batch counter counts the
files, the file names are `temp_batch_001.txt`, ..., in creation order,
every flushed file is non-empty, and together the files and the pending
batch hold exactly the non-empty results emitted so far, in order. -/
def OMInv (st : OMState) (emitted : List ExtractionResult) : Prop :=
  st.batch_count = st.temp_files.length ∧
    st.temp_files.map (fun f => f.name) =
      (List.range' 1 st.temp_files.length).map tempName ∧
    (∀ f ∈ st.temp_files, f.sections ≠ []) ∧
    allSections st = emitted

theorem OMInv_init : OMInv initOM [] := ⟨rfl, rfl, by simp [initOM], rfl⟩

theorem OMInv_add (st : OMState) (emitted : List ExtractionResult)
    (p : Nat) (c : List Char) (h : OMInv st emitted) :
    OMInv (add_content st p c)
      (emitted ++ if c ≠ [] then [(p, c)] else []) := by
  obtain ⟨h1, h2, h3, h4⟩ := h
  rw [add_content]
  split
  · refine ⟨h1, h2, h3, ?_⟩
    rw [← h4]
    simp [allSections, List.append_assoc]
  · simpa using ⟨h1, h2, h3, h4⟩

theorem OMInv_dump (st : OMState) (emitted : List ExtractionResult)
    (hs : List.Pairwise (fun a b : ExtractionResult => a.1 ≤ b.1) emitted)
    (h : OMInv st emitted) : OMInv (dump_interval_batch st) emitted := by
  obtain ⟨h1, h2, h3, h4⟩ := h
  rw [dump_interval_batch]
  split
  · exact ⟨h1, h2, h3, h4⟩
  · rename_i hcur
    have hpw : List.Pairwise (fun a b : ExtractionResult => a.1 ≤ b.1)
        st.current_batch := by
      rw [← h4, allSections] at hs
      exact (List.pairwise_append.mp hs).2.1
    have hwb : writeBatch st.current_batch = st.current_batch :=
      List.Sorted.insertionSort_eq hpw
    refine ⟨by simp [h1], ?_, ?_, ?_⟩
    · simp only [List.map_append, List.map_cons, List.map_nil,
        List.length_append, List.length_cons, List.length_nil]
      rw [h2, h1, List.range'_concat]
      simp [Nat.add_comm]
    · intro f hf
      rcases List.mem_append.mp hf with hf | hf
      · exact h3 f hf
      · simp only [List.mem_singleton] at hf
        subst hf
        simp only [hwb]
        exact hcur
    · rw [← h4]
      simp [allSections, hwb]

theorem OMInv_fold (dump_interval : Nat) :
    ∀ (l : List ExtractionResult) (st : OMState) (c : Nat)
      (emitted : List ExtractionResult),
      OMInv st emitted →
      List.Pairwise (fun a b : ExtractionResult => a.1 ≤ b.1)
        (emitted ++ l.filter (fun r => decide (r.2 ≠ []))) →
      OMInv (l.foldl (batchStep dump_interval) (st, c)).1
        (emitted ++ l.filter (fun r => decide (r.2 ≠ []))) := by
  intro l
  induction l with
  | nil =>
    intro st c emitted h _
    simpa using h
  | cons r t ih =>
    intro st c emitted h hpw
    have hfc : (r :: t).filter (fun r => decide (r.2 ≠ [])) =
        (if r.2 ≠ [] then [r] else []) ++
          t.filter (fun r => decide (r.2 ≠ [])) := by
      rw [List.filter_cons]
      split
      · rename_i hb
        rw [if_pos (by simpa using hb)]
        rfl
      · rename_i hb
        rw [if_neg (by simpa using hb)]
        rfl
    rw [hfc] at hpw ⊢
    rw [← List.append_assoc] at hpw ⊢
    have hadd : OMInv (add_content st r.1 r.2)
        (emitted ++ if r.2 ≠ [] then [(r.1, r.2)] else []) :=
      OMInv_add st emitted r.1 r.2 h
    have hadd' : OMInv (add_content st r.1 r.2)
        (emitted ++ if r.2 ≠ [] then [r] else []) := by
      rcases Prod.mk.eta (p := r) with h
      exact hadd
    rw [List.foldl_cons]
    by_cases hd : (c + 1) % dump_interval = 0
    · rw [show batchStep dump_interval (st, c) r =
          (dump_interval_batch (add_content st r.1 r.2), c + 1)
          from by rw [batchStep, if_pos hd]]
      refine ih _ (c + 1) _ ?_ hpw
      refine OMInv_dump _ _ ?_ hadd'
      exact hpw.sublist (List.sublist_append_left _ _)
    · rw [show batchStep dump_interval (st, c) r =
          (add_content st r.1 r.2, c + 1)
          from by rw [batchStep, if_neg hd]]
      exact ih _ (c + 1) _ hadd' hpw

/-- After a whole batch-mode run over page-sorted results, the manager
satisfies the invariant with exactly the non-empty results emitted. -/
theorem runBatch_inv (results : List ExtractionResult) (dump_interval : Nat)
    (hsorted : List.Pairwise (fun a b : ExtractionResult => a.1 ≤ b.1) results) :
    OMInv (runBatch results dump_interval)
      (results.filter (fun r => decide (r.2 ≠ []))) := by
  have hfil : List.Pairwise (fun a b : ExtractionResult => a.1 ≤ b.1)
      (results.filter (fun r => decide (r.2 ≠ []))) :=
    hsorted.sublist (List.filter_sublist results)
  have h := OMInv_fold dump_interval results initOM 0 [] OMInv_init
    (by simpa using hfil)
  simpa using h

/-- Claim C1, as stated, is false: results arriving out of page order
across a flush boundary stay out of order in the final file, because each
batch is sorted only internally.  With flush interval 1 and arrival order
page 2 then page 1, the merged file's sections are in order `[2, 1]`. -/
theorem c1_batch_ordering_counterexample :
    (runBatchSections [(2, ('b' :: [])), (1, ('a' :: []))] 1).map
        (fun l => l.map Prod.fst) = some [2, 1] ∧
      ¬ List.Pairwise (fun a b : Nat => a ≤ b) [2, 1] := by
  decide

/-- Claim C1 (amended): if the results arrive in ascending `unitIndex`
order (as the sequential driver guarantees) and at most 999 results are
processed (so the three-digit zero-padded temporary names sort in creation
order), then for every flush interval the final merged file holds exactly
the non-empty results, in ascending `unitIndex` order: each flushed batch
is written sorted and the batch files are concatenated in ascending
batch-sequence order. -/
theorem c1_batch_ordering (results : List ExtractionResult)
    (dump_interval : Nat) (_hint : 1 ≤ dump_interval)
    (hlen : results.length ≤ 999)
    (hsorted : List.Pairwise (fun a b : ExtractionResult => a.1 ≤ b.1) results)
    (secs : List ExtractionResult)
    (hsecs : runBatchSections results dump_interval = some secs) :
    secs = results.filter (fun r => decide (r.2 ≠ [])) ∧
      List.Pairwise (fun a b : ExtractionResult => a.1 ≤ b.1) secs := by
  have hF : List.Pairwise (fun a b : ExtractionResult => a.1 ≤ b.1)
      (results.filter (fun r => decide (r.2 ≠ []))) :=
    hsorted.sublist (List.filter_sublist results)
  have hinv := runBatch_inv results dump_interval hsorted
  rw [runBatchSections, merge_sections] at hsecs
  split at hsecs
  · exact absurd hsecs (by simp)
  · have hinv' := OMInv_dump _ _ hF hinv
    obtain ⟨h1, h2, h3, h4⟩ := hinv'
    have hcur : (dump_interval_batch (runBatch results dump_interval)).current_batch
        = [] := dump_current_nil _
    rw [allSections, hcur, List.append_nil] at h4
    have hk : (dump_interval_batch (runBatch results dump_interval)).temp_files.length
        ≤ 999 := by
      have hle := le_length_flatten
        ((dump_interval_batch (runBatch results dump_interval)).temp_files.map
          (fun f => f.sections))
        (by
          intro l hl
          rcases List.mem_map.mp hl with ⟨f, hf, rfl⟩
          exact h3 f hf)
      rw [h4] at hle
      have hfl := List.length_filter_le (fun r => decide (r.2 ≠ [])) results
      simp only [List.length_map] at hle
      omega
    have hnames : List.Pairwise (fun f g : TempFile => lexLe f.name g.name = true)
        (dump_interval_batch (runBatch results dump_interval)).temp_files := by
      have := pairwise_tempNames _ hk
      rw [← h2] at this
      exact List.pairwise_map.mp this
    have hsort : sortTempFiles
        (dump_interval_batch (runBatch results dump_interval)).temp_files =
        (dump_interval_batch (runBatch results dump_interval)).temp_files :=
      List.Sorted.insertionSort_eq hnames
    rw [hsort, h4] at hsecs
    have hsecs' : secs = results.filter (fun r => decide (r.2 ≠ [])) :=
      (Option.some_inj.mp hsecs).symm
    exact ⟨hsecs', hsecs' ▸ hF⟩

theorem c1_batch_ordering_witness :
    [(1, ('a' :: [])), (2, ('b' :: [])), (3, ('c' :: []))].filter
          (fun r : ExtractionResult => decide (r.2 ≠ [])) =
        [(1, ('a' :: [])), (2, ('b' :: [])), (3, ('c' :: []))] ∧
      ([(1, ('a' :: [])), (2, ('b' :: [])), (3, ('c' :: []))] :
          List ExtractionResult) =
        [(1, ('a' :: [])), (2, ('b' :: [])), (3, ('c' :: []))].filter
          (fun r : ExtractionResult => decide (r.2 ≠ [])) ∧
      List.Pairwise (fun a b : ExtractionResult => a.1 ≤ b.1)
        [(1, ('a' :: [])), (2, ('b' :: [])), (3, ('c' :: []))] := by
  refine ⟨by decide, ?_⟩
  exact c1_batch_ordering
    [(1, ('a' :: [])), (2, ('b' :: [])), (3, ('c' :: []))] 2 (by decide)
    (by decide) (by decide)
    [(1, ('a' :: [])), (2, ('b' :: [])), (3, ('c' :: []))] (by decide)

end TextReaper
